import Mathlib

/-!
Verification of the cryptographic core of the PasswordManager repository
(`backend/utils/encryption.py`).

The Python module wires a third-party authenticated cipher (a versioned
token format: version byte, big-endian timestamp, random IV, CBC
ciphertext with PKCS#7 padding, HMAC-SHA256 tag, all base64-url encoded)
behind an `EncryptionService`, plus a pure `PasswordStrengthChecker` and a
module-level singleton.  Plaintexts and keys are modelled as byte
sequences (`List Nat` with entries below 256); the underlying block
cipher, MAC and KDF primitives live behind a `Primitives` record, since
their internals are outside the repository.  The token assembly, padding,
CBC chaining, base64 text layer, all validity checks of `decrypt`, the
strength checker and the singleton lifecycle are modelled concretely.
-/

/-- A byte sequence: every entry is below 256. -/
def Bytes (l : List Nat) : Prop := ∀ b ∈ l, b < 256

instance (l : List Nat) : Decidable (Bytes l) :=
  inferInstanceAs (Decidable (∀ b ∈ l, b < 256))

/-- Pointwise XOR of two byte sequences (used by CBC chaining). -/
def xorBytes (a b : List Nat) : List Nat := List.zipWith (· ^^^ ·) a b

/-- PKCS#7 padding to 16-byte blocks: append `k` copies of the byte `k`,
where `k = 16 - len % 16` (always between 1 and 16). -/
def pad16 (l : List Nat) : List Nat :=
  let k := 16 - l.length % 16
  l ++ List.replicate k k

/-- Strict PKCS#7 unpadding: the last byte `k` must be between 1 and 16,
and the trailing `k` bytes must all equal `k`. -/
def unpad16 (l : List Nat) : Option (List Nat) :=
  if l.length = 0 then none
  else
    let k := l.getD (l.length - 1) 0
    if k = 0 ∨ 16 < k ∨ l.length < k then none
    else if l.drop (l.length - k) = List.replicate k k then
      some (l.take (l.length - k))
    else none

/-- The base64 URL-safe alphabet, in index order. -/
def B64_ALPHABET : List Char :=
  "ABCDEFGHIJKLMNOPQRSTUVWXYZabcdefghijklmnopqrstuvwxyz0123456789-_".toList

def b64Char (n : Nat) : Char := B64_ALPHABET.getD n 'A'

def b64IndexAux : List Char → Nat → Char → Option Nat
  | [], _, _ => none
  | a :: rest, i, c => if a = c then some i else b64IndexAux rest (i + 1) c

def b64Index (c : Char) : Option Nat := b64IndexAux B64_ALPHABET 0 c

/-- Base64 URL-safe encoding of a byte sequence, with `=` padding. -/
def b64Encode : List Nat → List Char
  | [] => []
  | [a] => [b64Char (a / 4), b64Char (a % 4 * 16), '=', '=']
  | [a, b] => [b64Char (a / 4), b64Char (a % 4 * 16 + b / 16), b64Char (b % 16 * 4), '=']
  | a :: b :: c :: rest =>
    b64Char (a / 4) :: b64Char (a % 4 * 16 + b / 16) :: b64Char (b % 16 * 4 + c / 64) ::
      b64Char (c % 64) :: b64Encode rest

/-- Decode one final 4-character base64 chunk (handles `=` padding). -/
def b64DecChunk (c1 c2 c3 c4 : Char) : Option (List Nat) :=
  if c3 = '=' then
    match b64Index c1, b64Index c2 with
    | some a, some b => if c4 = '=' ∧ b % 16 = 0 then some [a * 4 + b / 16] else none
    | _, _ => none
  else if c4 = '=' then
    match b64Index c1, b64Index c2, b64Index c3 with
    | some a, some b, some c =>
      if c % 4 = 0 then some [a * 4 + b / 16, b % 16 * 16 + c / 4] else none
    | _, _, _ => none
  else
    match b64Index c1, b64Index c2, b64Index c3, b64Index c4 with
    | some a, some b, some c, some d =>
      some [a * 4 + b / 16, b % 16 * 16 + c / 4, c % 4 * 64 + d]
    | _, _, _, _ => none

/-- Base64 URL-safe decoding; `none` on malformed input. -/
def b64Decode : List Char → Option (List Nat)
  | [] => some []
  | c1 :: c2 :: c3 :: c4 :: rest =>
    if rest = [] then b64DecChunk c1 c2 c3 c4
    else
      match b64DecChunk c1 c2 c3 c4, b64Decode rest with
      | some bs, some rs => if bs.length = 3 then some (bs ++ rs) else none
      | _, _ => none
  | _ => none

/-- Fuelled CBC-mode encryption over 16-byte blocks: each plaintext block
is XORed with the previous ciphertext block (initially the IV) before
entering the block transform `E`.  The fuel only bounds the recursion; it
is supplied as the input length by `cbcEnc`, which always suffices. -/
def cbcEncAux (E : List Nat → List Nat) : Nat → List Nat → List Nat → List Nat
  | 0, _, _ => []
  | n + 1, prev, l =>
    if l = [] then []
    else
      let c := E (xorBytes prev (l.take 16))
      c ++ cbcEncAux E n c (l.drop 16)

def cbcEnc (E : List Nat → List Nat) (prev l : List Nat) : List Nat :=
  cbcEncAux E l.length prev l

/-- Fuelled CBC-mode decryption: each plaintext block is the block
transform `D` of the ciphertext block, XORed with the previous ciphertext
block. -/
def cbcDecAux (D : List Nat → List Nat) : Nat → List Nat → List Nat → List Nat
  | 0, _, _ => []
  | n + 1, prev, l =>
    if l = [] then []
    else xorBytes prev (D (l.take 16)) ++ cbcDecAux D n (l.take 16) (l.drop 16)

def cbcDec (D : List Nat → List Nat) (prev l : List Nat) : List Nat :=
  cbcDecAux D l.length prev l

/-- Modelled from the spec: the cryptographic primitives that the repository
takes from its cryptography dependency and does not define itself — a keyed
16-byte block cipher pair, a keyed MAC (HMAC-SHA256: 32-byte tags), and a
password-based KDF (PBKDF2-HMAC-SHA256: 32-byte key material). -/
structure Primitives where
  blockE : List Nat → List Nat → List Nat
  blockD : List Nat → List Nat → List Nat
  mac : List Nat → List Nat → List Nat
  kdf : List Nat → List Nat → List Nat

/-- The contracts the spec assigns to the external primitives: the block
pair is inverse and length-preserving on 16-byte blocks, outputs are byte
sequences, MAC tags have 32 bytes, derived key material has 32 bytes. -/
structure GoodPrimitives (P : Primitives) : Prop where
  blockD_blockE : ∀ k b, b.length = 16 → Bytes b → P.blockD k (P.blockE k b) = b
  blockE_length : ∀ k b, b.length = 16 → (P.blockE k b).length = 16
  blockE_bytes : ∀ k b, Bytes (P.blockE k b)
  mac_length : ∀ k m, (P.mac k m).length = 32
  mac_bytes : ∀ k m, Bytes (P.mac k m)
  kdf_length : ∀ p s, (P.kdf p s).length = 32
  kdf_bytes : ∀ p s, Bytes (P.kdf p s)

/-- The hardcoded key-derivation salt `b'securevault_salt_do_not_change!'`. -/
def DEFAULT_SALT : List Nat := "securevault_salt_do_not_change!".toList.map Char.toNat

/-- `_derive_key`: PBKDF2 over the password and the supplied salt, falling
back to the hardcoded salt when none is given. -/
def derive_key (P : Primitives) (password : List Nat) (salt : Option (List Nat)) :
    List Nat :=
  P.kdf password (salt.getD DEFAULT_SALT)

/-- The state of an `EncryptionService`: the two 16-byte halves of the
decoded 32-byte key material. -/
structure EncryptionService where
  signingKey : List Nat
  encryptionKey : List Nat
deriving DecidableEq

/-- `EncryptionService.__init__` on the passphrase path: derive key material
with the default salt and split it into signing and encryption halves. -/
def EncryptionService.ofPassphrase (P : Primitives) (passphrase : List Nat) :
    EncryptionService :=
  let km := derive_key P passphrase none
  ⟨km.take 16, km.drop 16⟩

/-- Big-endian 8-byte encoding of the token timestamp. -/
def tsBytes8 (ts : Nat) : List Nat :=
  [ts / 256 ^ 7 % 256, ts / 256 ^ 6 % 256, ts / 256 ^ 5 % 256, ts / 256 ^ 4 % 256,
   ts / 256 ^ 3 % 256, ts / 256 ^ 2 % 256, ts / 256 % 256, ts % 256]

/-- The byte layout of a token before base64: version byte `0x80`, 8-byte
big-endian timestamp, 16-byte IV, CBC ciphertext of the padded plaintext,
then the 32-byte MAC tag over everything preceding it. -/
def tokenBytes (P : Primitives) (svc : EncryptionService) (ts : Nat)
    (iv pt : List Nat) : List Nat :=
  let ct := cbcEnc (P.blockE svc.encryptionKey) iv (pad16 pt)
  let body := 128 :: (tsBytes8 ts ++ iv ++ ct)
  body ++ P.mac svc.signingKey body

/-- The error kinds surfaced by the module (the Python code raises generic
`Exception`s with these three message families). -/
inductive CryptoError where
  | encryptionFailed
  | decryptionFailed
  | notInitialized
deriving DecidableEq

/-- `EncryptionService.encrypt`: empty plaintext short-circuits to the empty
string; otherwise assemble the token and base64-encode it.  The random IV
and the clock-sampled timestamp are explicit arguments of the model. -/
def encrypt (P : Primitives) (svc : EncryptionService) (ts : Nat)
    (iv pt : List Nat) : List Char :=
  if pt = [] then [] else b64Encode (tokenBytes P svc ts iv pt)

/-- `EncryptionService.decrypt`: empty token short-circuits to the empty
string; otherwise base64-decode, check the minimal length, the version
byte and the MAC tag, CBC-decrypt and unpad.  Every failure collapses to
the one generic decryption-failed error. -/
def decrypt (P : Primitives) (svc : EncryptionService) (token : List Char) :
    Except CryptoError (List Nat) :=
  if token = [] then .ok []
  else
    match b64Decode token with
    | none => .error .decryptionFailed
    | some data =>
      if data.length < 57 then .error .decryptionFailed
      else if data.getD 0 0 ≠ 128 then .error .decryptionFailed
      else if P.mac svc.signingKey (data.take (data.length - 32)) ≠
          data.drop (data.length - 32) then .error .decryptionFailed
      else
        let iv := (data.drop 9).take 16
        let ct := (data.drop 25).take (data.length - 57)
        if ct.length % 16 ≠ 0 then .error .decryptionFailed
        else
          match unpad16 (cbcDec (P.blockD svc.encryptionKey) iv ct) with
          | none => .error .decryptionFailed
          | some pt => .ok pt

/-- `init_encryption_service`: unconditionally construct a fresh service
from the passphrase and store it in the module-level singleton slot. -/
def init_encryption_service (P : Primitives) (encryption_key : List Nat)
    (state : Option EncryptionService) : EncryptionService × Option EncryptionService :=
  let svc := EncryptionService.ofPassphrase P encryption_key
  (svc, some svc)

/-- `get_encryption_service`: fail when the singleton slot is still empty. -/
def get_encryption_service (state : Option EncryptionService) :
    Except CryptoError EncryptionService :=
  match state with
  | none => .error .notInitialized
  | some svc => .ok svc

/-- The fixed special-character set of the strength checker. -/
def SPECIAL_CHARS : List Char := "!@#$%^&*()_+-=[]\x7b\x7d|;:,.<>?".toList

/-- The result shape of `check_strength`. -/
structure StrengthResult where
  is_weak : Bool
  score : Int
  max_score : Int
  feedback : List String
deriving DecidableEq

/-- `PasswordStrengthChecker.check_strength`: five independent checks, each
worth one point, with a feedback message for every missed check except the
length-12 bonus; the final score is clamped below at 0. -/
def check_strength (password : String) : StrengthResult :=
  let cs := password.toList
  let score1 : Int := if 8 ≤ password.length then 1 else 0
  let fb1 : List String :=
    if 8 ≤ password.length then [] else ["Password should be at least 8 characters"]
  let score2 : Int := if 12 ≤ password.length then 1 else 0
  let hasCase : Bool := cs.any Char.isUpper && cs.any Char.isLower
  let score3 : Int := if hasCase then 1 else 0
  let fb3 : List String := if hasCase then [] else ["Add uppercase and lowercase letters"]
  let hasDigit : Bool := cs.any Char.isDigit
  let score4 : Int := if hasDigit then 1 else 0
  let fb4 : List String := if hasDigit then [] else ["Add numbers"]
  let hasSpecial : Bool := cs.any (fun c => SPECIAL_CHARS.contains c)
  let score5 : Int := if hasSpecial then 1 else 0
  let fb5 : List String := if hasSpecial then [] else ["Add special characters"]
  let score := score1 + score2 + score3 + score4 + score5
  { is_weak := decide (score < 4)
    score := max 0 score
    max_score := 5
    feedback := fb1 ++ fb3 ++ fb4 ++ fb5 }

/-- `PasswordStrengthChecker.is_reused`: plain membership of the candidate
in the caller-supplied corpus. -/
def is_reused (password : String) (existing_passwords : List String) : Bool :=
  existing_passwords.contains password

/-- A concrete instantiation of the external primitives, used to evaluate
the model on explicit inputs: the block transform reduces entries mod 256,
and the MAC and KDF are additive checksums spread over the required widths. -/
def demoPrimitives : Primitives where
  blockE := fun _ b => b.map (· % 256)
  blockD := fun _ b => b
  mac := fun k m =>
    (List.range 32).map fun i => (k.foldl (· + ·) 0 + m.foldl (· + ·) 0 + i) % 256
  kdf := fun p s =>
    (List.range 32).map fun i => (p.foldl (· + ·) 0 + s.foldl (· + ·) 0 + i) % 256

/-- A concrete 16-byte IV for evaluating the model. -/
def demoIV : List Nat := [0, 1, 2, 3, 4, 5, 6, 7, 8, 9, 10, 11, 12, 13, 14, 15]

/-- A second concrete 16-byte IV, distinct from `demoIV`. -/
def demoIV2 : List Nat := [20, 1, 2, 3, 4, 5, 6, 7, 8, 9, 10, 11, 12, 13, 14, 15]

/-- A concrete service derived from a concrete passphrase. -/
def demoService : EncryptionService :=
  EncryptionService.ofPassphrase demoPrimitives [109, 107]

theorem xorBytes_length (a b : List Nat) :
    (xorBytes a b).length = min a.length b.length := by
  simp [xorBytes]

theorem xorBytes_xorBytes_cancel (a b : List Nat) (h : a.length = b.length) :
    xorBytes a (xorBytes a b) = b := by
  induction a generalizing b with
  | nil => cases b <;> simp_all [xorBytes]
  | cons x xs ih =>
    cases b with
    | nil => simp at h
    | cons y ys =>
      have h' : xs.length = ys.length := by simpa using h
      simp only [xorBytes, List.zipWith_cons_cons]
      rw [← Nat.xor_assoc, Nat.xor_self, Nat.zero_xor]
      exact congrArg (List.cons y) (ih ys h')

theorem xorBytes_bytes : ∀ (a b : List Nat), Bytes a → Bytes b → Bytes (xorBytes a b)
  | [], _, _, _ => by simp [xorBytes, Bytes]
  | _ :: _, [], _, _ => by simp [xorBytes, Bytes]
  | x :: xs, y :: ys, ha, hb => by
    intro c hc
    simp only [xorBytes, List.zipWith_cons_cons, List.mem_cons] at hc
    rcases hc with h | h
    · subst h
      have hx : x < 2 ^ 8 := ha x (by simp)
      have hy : y < 2 ^ 8 := hb y (by simp)
      have := Nat.xor_lt_two_pow hx hy
      omega
    · exact xorBytes_bytes xs ys (fun u hu => ha u (List.mem_cons_of_mem _ hu))
        (fun u hu => hb u (List.mem_cons_of_mem _ hu)) c h

theorem pad16_length (l : List Nat) :
    (pad16 l).length = l.length + (16 - l.length % 16) := by
  simp [pad16]

theorem pad16_length_mod (l : List Nat) : (pad16 l).length % 16 = 0 := by
  rw [pad16_length]
  omega

theorem pad16_bytes (l : List Nat) (h : Bytes l) : Bytes (pad16 l) := by
  intro b hb
  simp only [pad16, List.mem_append, List.mem_replicate] at hb
  rcases hb with hb | hb
  · exact h b hb
  · omega

theorem getD_last_append_replicate (m : List Nat) (k c : Nat) (hk : 1 ≤ k) :
    (m ++ List.replicate k c).getD ((m ++ List.replicate k c).length - 1) 0 = c := by
  have hlen : (m ++ List.replicate k c).length = m.length + k := by simp
  rw [List.getD_eq_getElem?_getD, hlen,
    List.getElem?_append_right (by omega), List.getElem?_replicate]
  have h1 : m.length + k - 1 - m.length < k := by omega
  simp [h1]

theorem unpad16_pad16 (l : List Nat) : unpad16 (pad16 l) = some l := by
  set k := 16 - l.length % 16 with hkdef
  have hk1 : 1 ≤ k := by omega
  have hk2 : k ≤ 16 := by omega
  have hlen : (pad16 l).length = l.length + k := pad16_length l
  have hne : ¬ ((pad16 l).length = 0) := by omega
  have hlast : (pad16 l).getD ((pad16 l).length - 1) 0 = k :=
    getD_last_append_replicate l k k hk1
  have hdrop : (pad16 l).drop ((pad16 l).length - k) = List.replicate k k := by
    rw [hlen, show l.length + k - k = l.length by omega]
    exact List.drop_left' rfl
  have htake : (pad16 l).take ((pad16 l).length - k) = l := by
    rw [hlen, show l.length + k - k = l.length by omega]
    exact List.take_left' rfl
  rw [unpad16]
  rw [if_neg hne]
  simp only [hlast]
  rw [if_neg (by omega), if_pos hdrop, htake]

theorem b64Index_b64Char : ∀ n < 64, b64Index (b64Char n) = some n := by decide

theorem b64Char_ne_pad : ∀ n < 64, b64Char n ≠ '=' := by decide

theorem b64Encode_ne_nil : ∀ (l : List Nat), l ≠ [] → b64Encode l ≠ []
  | [], h => absurd rfl h
  | [_], _ => by simp [b64Encode]
  | [_, _], _ => by simp [b64Encode]
  | _ :: _ :: _ :: _, _ => by simp [b64Encode]

theorem b64Decode_b64Encode : ∀ (l : List Nat), Bytes l → b64Decode (b64Encode l) = some l
  | [], _ => rfl
  | [a], h => by
    have ha : a < 256 := h a (by simp)
    have e1 := b64Index_b64Char (a / 4) (by omega)
    have e2 := b64Index_b64Char (a % 4 * 16) (by omega)
    simp only [b64Encode, b64Decode, b64DecChunk, e1, e2]
    simp only [if_pos rfl, Nat.mul_mod_left, and_true, true_and, if_true]
    rw [show a / 4 * 4 + a % 4 * 16 / 16 = a by omega]
  | [a, b], h => by
    have ha : a < 256 := h a (by simp)
    have hb : b < 256 := h b (by simp)
    have e1 := b64Index_b64Char (a / 4) (by omega)
    have e2 := b64Index_b64Char (a % 4 * 16 + b / 16) (by omega)
    have e3 := b64Index_b64Char (b % 16 * 4) (by omega)
    have n3 : b64Char (b % 16 * 4) ≠ '=' := b64Char_ne_pad _ (by omega)
    simp only [b64Encode, b64Decode, b64DecChunk, if_neg n3, e1, e2, e3]
    simp only [if_pos rfl, Nat.mul_mod_left, if_true]
    rw [show (a / 4 * 4 + (a % 4 * 16 + b / 16) / 16) = a by omega,
      show (a % 4 * 16 + b / 16) % 16 * 16 + b % 16 * 4 / 4 = b by omega]
  | a :: b :: c :: rest, h => by
    have ha : a < 256 := h a (by simp)
    have hb : b < 256 := h b (by simp)
    have hc : c < 256 := h c (by simp)
    have e1 := b64Index_b64Char (a / 4) (by omega)
    have e2 := b64Index_b64Char (a % 4 * 16 + b / 16) (by omega)
    have e3 := b64Index_b64Char (b % 16 * 4 + c / 64) (by omega)
    have e4 := b64Index_b64Char (c % 64) (by omega)
    have n3 : b64Char (b % 16 * 4 + c / 64) ≠ '=' := b64Char_ne_pad _ (by omega)
    have n4 : b64Char (c % 64) ≠ '=' := b64Char_ne_pad _ (by omega)
    have ih := b64Decode_b64Encode rest (fun u hu => h u (by simp [hu]))
    have hchunk : b64DecChunk (b64Char (a / 4)) (b64Char (a % 4 * 16 + b / 16))
        (b64Char (b % 16 * 4 + c / 64)) (b64Char (c % 64)) = some [a, b, c] := by
      simp only [b64DecChunk, if_neg n3, if_neg n4, e1, e2, e3, e4]
      rw [show (a / 4 * 4 + (a % 4 * 16 + b / 16) / 16) = a by omega,
        show (a % 4 * 16 + b / 16) % 16 * 16 + (b % 16 * 4 + c / 64) / 4 = b by omega,
        show (b % 16 * 4 + c / 64) % 4 * 64 + c % 64 = c by omega]
    by_cases hrest : rest = []
    · subst hrest
      simp only [b64Encode, b64Decode, if_pos rfl, hchunk]
      rfl
    · have hne := b64Encode_ne_nil rest hrest
      simp only [b64Encode, b64Decode, if_neg hne, hchunk, ih]
      simp

theorem cbcEncAux_length (E : List Nat → List Nat)
    (hE : ∀ b, b.length = 16 → (E b).length = 16) :
    ∀ (n : Nat) (prev l : List Nat), l.length ≤ n → prev.length = 16 →
      l.length % 16 = 0 → (cbcEncAux E n prev l).length = l.length := by
  intro n
  induction n with
  | zero =>
    intro prev l hn _ _
    have hl : l = [] := List.length_eq_zero.mp (Nat.le_zero.mp hn)
    subst hl
    rfl
  | succ m ih =>
    intro prev l hn hprev hmod
    by_cases hl : l = []
    · subst hl; rfl
    · rw [cbcEncAux, if_neg hl]
      have hlpos : l.length ≠ 0 := fun hh => hl (List.length_eq_zero.mp hh)
      have hlen16 : 16 ≤ l.length := by omega
      have hargs : (xorBytes prev (l.take 16)).length = 16 := by
        rw [xorBytes_length, hprev, List.length_take]
        omega
      have hc : (E (xorBytes prev (l.take 16))).length = 16 := hE _ hargs
      have hrec := ih (E (xorBytes prev (l.take 16))) (l.drop 16)
        (by rw [List.length_drop]; omega) hc (by rw [List.length_drop]; omega)
      rw [List.length_append, hc, hrec, List.length_drop]
      omega

theorem cbcEnc_length (E : List Nat → List Nat)
    (hE : ∀ b, b.length = 16 → (E b).length = 16)
    (prev l : List Nat) (hprev : prev.length = 16) (hmod : l.length % 16 = 0) :
    (cbcEnc E prev l).length = l.length :=
  cbcEncAux_length E hE l.length prev l le_rfl hprev hmod

theorem cbcEncAux_bytes (E : List Nat → List Nat)
    (hEb : ∀ b, Bytes (E b)) :
    ∀ (n : Nat) (prev l : List Nat), Bytes (cbcEncAux E n prev l) := by
  intro n
  induction n with
  | zero =>
    intro prev l
    simp [cbcEncAux, Bytes]
  | succ m ih =>
    intro prev l
    by_cases hl : l = []
    · subst hl; simp [cbcEncAux, Bytes]
    · rw [cbcEncAux, if_neg hl]
      intro b hb
      rcases List.mem_append.mp hb with hb | hb
      · exact hEb _ b hb
      · exact ih _ (l.drop 16) b hb

theorem cbcEnc_bytes (E : List Nat → List Nat) (hEb : ∀ b, Bytes (E b))
    (prev l : List Nat) : Bytes (cbcEnc E prev l) :=
  cbcEncAux_bytes E hEb l.length prev l

theorem cbcDecAux_cbcEncAux (E D : List Nat → List Nat)
    (hED : ∀ b, b.length = 16 → Bytes b → D (E b) = b)
    (hE : ∀ b, b.length = 16 → (E b).length = 16)
    (hEb : ∀ b, Bytes (E b)) :
    ∀ (n m : Nat) (prev l : List Nat), l.length ≤ n → l.length ≤ m →
      prev.length = 16 → Bytes prev → Bytes l → l.length % 16 = 0 →
      cbcDecAux D m prev (cbcEncAux E n prev l) = l := by
  intro n
  induction n with
  | zero =>
    intro m prev l hn _ _ _ _ _
    have hl : l = [] := List.length_eq_zero.mp (Nat.le_zero.mp hn)
    subst hl
    cases m <;> rfl
  | succ k ih =>
    intro m prev l hn hm hprev hprevb hlb hmod
    by_cases hl : l = []
    · subst hl
      cases m <;> rfl
    · have hlpos : l.length ≠ 0 := fun hh => hl (List.length_eq_zero.mp hh)
      have hlen16 : 16 ≤ l.length := by omega
      cases m with
      | zero => omega
      | succ m' =>
        rw [cbcEncAux, if_neg hl]
        have htk : (l.take 16).length = 16 := by rw [List.length_take]; omega
        have htkb : Bytes (l.take 16) := fun b hb => hlb b (List.mem_of_mem_take hb)
        have hargs : (xorBytes prev (l.take 16)).length = 16 := by
          rw [xorBytes_length, hprev, htk]
          omega
        have hargsb : Bytes (xorBytes prev (l.take 16)) := xorBytes_bytes _ _ hprevb htkb
        set c := E (xorBytes prev (l.take 16)) with hcdef
        have hc : c.length = 16 := hE _ hargs
        have hne : c ++ cbcEncAux E k c (l.drop 16) ≠ [] := by
          intro hh
          have := congrArg List.length hh
          simp [hc] at this
        rw [cbcDecAux, if_neg hne]
        rw [List.take_left' hc, List.drop_left' hc]
        rw [hED _ hargs hargsb, xorBytes_xorBytes_cancel prev _ (by omega)]
        have hdropb : Bytes (l.drop 16) := fun b hb => hlb b (List.mem_of_mem_drop hb)
        have hrec := ih m' c (l.drop 16)
          (by rw [List.length_drop]; omega) (by rw [List.length_drop]; omega)
          hc (hEb _) hdropb (by rw [List.length_drop]; omega)
        rw [hrec, List.take_append_drop]

theorem cbcDec_cbcEnc (E D : List Nat → List Nat)
    (hED : ∀ b, b.length = 16 → Bytes b → D (E b) = b)
    (hE : ∀ b, b.length = 16 → (E b).length = 16)
    (hEb : ∀ b, Bytes (E b))
    (prev l : List Nat) (hprev : prev.length = 16) (hprevb : Bytes prev)
    (hlb : Bytes l) (hmod : l.length % 16 = 0) :
    cbcDec D prev (cbcEnc E prev l) = l := by
  unfold cbcDec cbcEnc
  rw [cbcEncAux_length E hE l.length prev l le_rfl hprev hmod]
  exact cbcDecAux_cbcEncAux E D hED hE hEb l.length l.length prev l le_rfl le_rfl
    hprev hprevb hlb hmod

theorem tsBytes8_bytes (ts : Nat) : Bytes (tsBytes8 ts) := by
  intro b hb
  simp only [tsBytes8, List.mem_cons, List.not_mem_nil, or_false] at hb
  rcases hb with h | h | h | h | h | h | h | h <;> subst h <;>
    exact Nat.mod_lt _ (by norm_num)

theorem pad16_length_ge (l : List Nat) : 16 ≤ (pad16 l).length := by
  rw [pad16_length]
  omega

theorem decrypt_encrypt (P : Primitives) (hP : GoodPrimitives P)
    (svc : EncryptionService) (ts : Nat) (iv pt : List Nat)
    (hpt : pt ≠ []) (hptb : Bytes pt) (hiv : iv.length = 16) (hivb : Bytes iv) :
    decrypt P svc (encrypt P svc ts iv pt) = .ok pt := by
  have hE : ∀ b, b.length = 16 → (P.blockE svc.encryptionKey b).length = 16 :=
    fun b hb => hP.blockE_length _ b hb
  have hEb : ∀ b, Bytes (P.blockE svc.encryptionKey b) :=
    fun b => hP.blockE_bytes _ b
  have hED : ∀ b, b.length = 16 → Bytes b →
      P.blockD svc.encryptionKey (P.blockE svc.encryptionKey b) = b :=
    fun b hb hbb => hP.blockD_blockE _ b hb hbb
  set ct := cbcEnc (P.blockE svc.encryptionKey) iv (pad16 pt) with hct
  set body := 128 :: (tsBytes8 ts ++ iv ++ ct) with hbody
  set tag := P.mac svc.signingKey body with htag
  have hdata : tokenBytes P svc ts iv pt = body ++ tag := rfl
  have hctlen : ct.length = (pad16 pt).length :=
    cbcEnc_length _ hE iv (pad16 pt) hiv (pad16_length_mod pt)
  have hctge : 16 ≤ ct.length := by rw [hctlen]; exact pad16_length_ge pt
  have hctb : Bytes ct :=
    cbcEnc_bytes _ hEb iv (pad16 pt)
  have hts8len : (tsBytes8 ts).length = 8 := rfl
  have hbodylen : body.length = 25 + ct.length := by
    rw [hbody]
    simp [hts8len, hiv]
    omega
  have htaglen : tag.length = 32 := hP.mac_length _ _
  have hdatalen : (body ++ tag).length = 57 + ct.length := by
    rw [List.length_append, hbodylen, htaglen]
    omega
  have hbodyb : Bytes body := by
    intro b hb
    rw [hbody] at hb
    simp only [List.mem_cons, List.mem_append] at hb
    rcases hb with h | (h | h) | h
    · omega
    · exact tsBytes8_bytes ts b h
    · exact hivb b h
    · exact hctb b h
  have hdatab : Bytes (body ++ tag) := by
    intro b hb
    rcases List.mem_append.mp hb with h | h
    · exact hbodyb b h
    · exact hP.mac_bytes _ _ b h
  have hdatane : body ++ tag ≠ [] := by
    intro hh
    have := congrArg List.length hh
    rw [hdatalen] at this
    simp at this
  rw [encrypt, if_neg hpt, hdata]
  have hne64 := b64Encode_ne_nil _ hdatane
  have hdec64 := b64Decode_b64Encode _ hdatab
  rw [decrypt, if_neg hne64]
  have hlt : ¬ ((body ++ tag).length < 57) := by rw [hdatalen]; omega
  split
  next heq => rw [hdec64] at heq; cases heq
  next data heq =>
  rw [hdec64] at heq
  injection heq with heq
  subst heq
  rw [if_neg hlt]
  have hhead : (body ++ tag).getD 0 0 = 128 := by rw [hbody]; rfl
  rw [if_neg (by rw [hhead]; exact fun h => h rfl)]
  have htake : (body ++ tag).take ((body ++ tag).length - 32) = body := by
    apply List.take_left'
    rw [hdatalen, hbodylen]
    omega
  have hdrop : (body ++ tag).drop ((body ++ tag).length - 32) = tag := by
    apply List.drop_left'
    rw [hdatalen, hbodylen]
    omega
  rw [if_neg (by rw [htake, hdrop, htag]; exact fun h => h rfl)]
  have hshape9 : (body ++ tag).drop 9 = iv ++ (ct ++ tag) := by
    rw [hbody, show (128 :: (tsBytes8 ts ++ iv ++ ct)) ++ tag =
      (128 :: tsBytes8 ts) ++ (iv ++ (ct ++ tag)) by simp]
    exact List.drop_left' (by simp [hts8len])
  have hshape25 : (body ++ tag).drop 25 = ct ++ tag := by
    rw [hbody, show (128 :: (tsBytes8 ts ++ iv ++ ct)) ++ tag =
      (128 :: (tsBytes8 ts ++ iv)) ++ (ct ++ tag) by simp]
    exact List.drop_left' (by simp [hts8len, hiv])
  rw [hshape9, hshape25, List.take_left' hiv, hdatalen,
    show 57 + ct.length - 57 = ct.length from by omega, List.take_left' rfl]
  rw [if_neg (by rw [hctlen]; simpa using pad16_length_mod pt)]
  rw [hct, cbcDec_cbcEnc _ _ hED hE hEb iv (pad16 pt) hiv
    hivb (pad16_bytes pt hptb) (pad16_length_mod pt)]
  rw [unpad16_pad16]

theorem tsBytes8_inj (t1 t2 : Nat) (h1 : t1 < 2 ^ 64) (h2 : t2 < 2 ^ 64)
    (h : tsBytes8 t1 = tsBytes8 t2) : t1 = t2 := by
  simp only [tsBytes8, List.cons.injEq, and_true] at h
  omega

theorem take_set_of_le (l : List Nat) (i v n : Nat) (h : n ≤ i) :
    (l.set i v).take n = l.take n := by
  apply List.ext_getElem?
  intro j
  rw [List.getElem?_take, List.getElem?_take]
  by_cases hj : j < n
  · rw [if_pos hj, if_pos hj, List.getElem?_set, if_neg (by omega)]
  · rw [if_neg hj, if_neg hj]

theorem drop_set_of_lt (l : List Nat) (i v n : Nat) (h : i < n) :
    (l.set i v).drop n = l.drop n := by
  apply List.ext_getElem?
  intro j
  rw [List.getElem?_drop, List.getElem?_drop, List.getElem?_set, if_neg (by omega)]

theorem set_bytes (l : List Nat) (i v : Nat) (hv : v < 256) (hl : Bytes l) :
    Bytes (l.set i v) := by
  intro b hb
  rcases List.mem_or_eq_of_mem_set hb with h | h
  · exact hl b h
  · omega

/-- A byte sequence over bytes is fixed by reduction mod 256 pointwise. -/
theorem map_mod256_of_bytes : ∀ (l : List Nat), Bytes l → l.map (· % 256) = l
  | [], _ => rfl
  | x :: xs, h => by
    have hx : x < 256 := h x (by simp)
    simp only [List.map_cons, Nat.mod_eq_of_lt hx]
    exact congrArg (List.cons x)
      (map_mod256_of_bytes xs (fun u hu => h u (List.mem_cons_of_mem _ hu)))

theorem demoPrimitives_good : GoodPrimitives demoPrimitives := by
  refine ⟨?_, ?_, ?_, ?_, ?_, ?_, ?_⟩
  · intro k b _ hb
    exact map_mod256_of_bytes b hb
  · intro k b hb
    simpa [demoPrimitives] using hb
  · intro k b x hx
    simp only [demoPrimitives, List.mem_map] at hx
    obtain ⟨y, _, rfl⟩ := hx
    omega
  · intro k m
    simp [demoPrimitives]
  · intro k m x hx
    simp only [demoPrimitives, List.mem_map] at hx
    obtain ⟨y, _, rfl⟩ := hx
    omega
  · intro p s
    simp [demoPrimitives]
  · intro p s x hx
    simp only [demoPrimitives, List.mem_map] at hx
    obtain ⟨y, _, rfl⟩ := hx
    omega

theorem tokenBytes_ne_nil (P : Primitives) (hP : GoodPrimitives P)
    (svc : EncryptionService) (ts : Nat) (iv pt : List Nat) :
    tokenBytes P svc ts iv pt ≠ [] := by
  intro h
  have h2 := congrArg List.length h
  rw [tokenBytes] at h2
  simp [hP.mac_length] at h2

/-- C1: for every non-empty plaintext, decrypting the token produced by
encrypting it under the same service returns the plaintext unchanged. -/
theorem encrypt_decrypt_round_trip (P : Primitives) (hP : GoodPrimitives P)
    (svc : EncryptionService) (ts : Nat) (iv pt : List Nat)
    (hpt : pt ≠ []) (hptb : Bytes pt) (hiv : iv.length = 16) (hivb : Bytes iv) :
    decrypt P svc (encrypt P svc ts iv pt) = .ok pt :=
  decrypt_encrypt P hP svc ts iv pt hpt hptb hiv hivb

theorem encrypt_decrypt_round_trip_witness :
    decrypt demoPrimitives demoService
      (encrypt demoPrimitives demoService 1700000000 demoIV [104, 105]) = .ok [104, 105] :=
  encrypt_decrypt_round_trip demoPrimitives demoPrimitives_good demoService 1700000000
    demoIV [104, 105] (by decide) (by decide) (by decide) (by decide)

/-- C3: before initialization, obtaining the crypto service fails with the
not-initialized error; after initialization with a passphrase, the service
is returned and both encrypt and decrypt succeed (encrypt yields a token,
and decrypt recovers the plaintext from it). -/
theorem initialization_gating (P : Primitives) (hP : GoodPrimitives P)
    (passphrase : List Nat) (ts : Nat) (iv pt : List Nat)
    (hpt : pt ≠ []) (hptb : Bytes pt) (hiv : iv.length = 16) (hivb : Bytes iv) :
    get_encryption_service none = .error .notInitialized ∧
    ∃ svc, get_encryption_service (init_encryption_service P passphrase none).2 = .ok svc ∧
      encrypt P svc ts iv pt ≠ [] ∧
      decrypt P svc (encrypt P svc ts iv pt) = .ok pt := by
  refine ⟨rfl, EncryptionService.ofPassphrase P passphrase, rfl, ?_, ?_⟩
  · rw [encrypt, if_neg hpt]
    exact b64Encode_ne_nil _ (tokenBytes_ne_nil P hP _ ts iv pt)
  · exact decrypt_encrypt P hP _ ts iv pt hpt hptb hiv hivb

theorem initialization_gating_witness :
    get_encryption_service none = .error .notInitialized ∧
    ∃ svc,
      get_encryption_service
        (init_encryption_service demoPrimitives [109, 107] none).2 = .ok svc ∧
      encrypt demoPrimitives svc 1700000000 demoIV [104, 105] ≠ [] ∧
      decrypt demoPrimitives svc
        (encrypt demoPrimitives svc 1700000000 demoIV [104, 105]) = .ok [104, 105] :=
  initialization_gating demoPrimitives demoPrimitives_good [109, 107] 1700000000
    demoIV [104, 105] (by decide) (by decide) (by decide) (by decide)

/-- C4 (counterexample): the hardcoded default salt does not have 32 bytes. -/
theorem default_salt_not_32_bytes : DEFAULT_SALT.length ≠ 32 := by decide

/-- C4 (amended): when no salt argument is supplied, key derivation uses the
fixed hardcoded salt, a 31-byte value identical in every deployment. -/
theorem derive_key_uses_fixed_salt (P : Primitives) (password : List Nat) :
    derive_key P password none = P.kdf password DEFAULT_SALT ∧
    DEFAULT_SALT.length = 31 ∧ Bytes DEFAULT_SALT :=
  ⟨rfl, by decide, by decide⟩

/-- C8: `is_reused` is true exactly when the candidate equals some element
of the corpus, byte for byte. -/
theorem is_reused_iff_mem (password : String) (existing_passwords : List String) :
    is_reused password existing_passwords = true ↔
      ∃ q ∈ existing_passwords, password = q := by
  simp [is_reused, List.contains_iff_exists_mem_beq, beq_iff_eq]

/-- C9: encrypting the empty string yields the empty string, and decrypting
the empty string yields the empty string — short circuits, not errors. -/
theorem empty_short_circuit (P : Primitives) (svc : EncryptionService)
    (ts : Nat) (iv : List Nat) :
    encrypt P svc ts iv [] = [] ∧ decrypt P svc [] = .ok [] :=
  ⟨rfl, rfl⟩

/-- C10: a later call to `init_encryption_service` is accepted: it builds a
fresh service from the new passphrase, overwrites the singleton slot, and
subsequent `get_encryption_service` calls return the new instance, not the
previously stored one. -/
theorem reinit_replaces_singleton (P : Primitives) (encryption_key : List Nat)
    (state : Option EncryptionService) (old : EncryptionService)
    (hold : state = some old)
    (hne : EncryptionService.ofPassphrase P encryption_key ≠ old) :
    (init_encryption_service P encryption_key state).1 =
      EncryptionService.ofPassphrase P encryption_key ∧
    get_encryption_service (init_encryption_service P encryption_key state).2 =
      .ok (EncryptionService.ofPassphrase P encryption_key) ∧
    get_encryption_service (init_encryption_service P encryption_key state).2 ≠
      .ok old := by
  refine ⟨rfl, rfl, ?_⟩
  intro h
  exact hne (Except.ok.inj h)

theorem reinit_replaces_singleton_witness :
    (init_encryption_service demoPrimitives [1, 2] (some ⟨[], []⟩)).1 =
      EncryptionService.ofPassphrase demoPrimitives [1, 2] ∧
    get_encryption_service (init_encryption_service demoPrimitives [1, 2]
        (some ⟨[], []⟩)).2 = .ok (EncryptionService.ofPassphrase demoPrimitives [1, 2]) ∧
    get_encryption_service (init_encryption_service demoPrimitives [1, 2]
        (some ⟨[], []⟩)).2 ≠ .ok (⟨[], []⟩ : EncryptionService) :=
  reinit_replaces_singleton demoPrimitives [1, 2] (some ⟨[], []⟩) ⟨[], []⟩ rfl (by decide)

/-- C2: flipping any single byte in the ciphertext or tag region of a valid
token makes `decrypt` fail with the generic decryption-failed error (so no
plaintext, right or wrong, is ever returned).  For a flip inside the
ciphertext region this relies on the MAC not colliding on the two
authenticated prefixes, which is the defining security property of the
HMAC primitive. -/
theorem decrypt_rejects_tampered_byte (P : Primitives) (hP : GoodPrimitives P)
    (svc : EncryptionService) (ts : Nat) (iv pt : List Nat) (i v : Nat)
    (hpt : pt ≠ []) (hptb : Bytes pt) (hiv : iv.length = 16) (hivb : Bytes iv)
    (hv : v < 256) (hlo : 25 ≤ i) (hhi : i < (tokenBytes P svc ts iv pt).length)
    (hchange : v ≠ (tokenBytes P svc ts iv pt).getD i 0)
    (hmacsafe : i < (tokenBytes P svc ts iv pt).length - 32 →
      P.mac svc.signingKey (((tokenBytes P svc ts iv pt).set i v).take
          ((tokenBytes P svc ts iv pt).length - 32)) ≠
        P.mac svc.signingKey ((tokenBytes P svc ts iv pt).take
          ((tokenBytes P svc ts iv pt).length - 32))) :
    decrypt P svc (b64Encode ((tokenBytes P svc ts iv pt).set i v)) =
      .error .decryptionFailed := by
  have hE : ∀ b, b.length = 16 → (P.blockE svc.encryptionKey b).length = 16 :=
    fun b hb => hP.blockE_length _ b hb
  have hEb : ∀ b, Bytes (P.blockE svc.encryptionKey b) := fun b => hP.blockE_bytes _ b
  set ct := cbcEnc (P.blockE svc.encryptionKey) iv (pad16 pt) with hct
  set body := 128 :: (tsBytes8 ts ++ iv ++ ct) with hbody
  set tag := P.mac svc.signingKey body with htag
  have hdata : tokenBytes P svc ts iv pt = body ++ tag := rfl
  rw [hdata] at hhi hchange hmacsafe ⊢
  have hctlen : ct.length = (pad16 pt).length :=
    cbcEnc_length _ hE iv (pad16 pt) hiv (pad16_length_mod pt)
  have hctge : 16 ≤ ct.length := by rw [hctlen]; exact pad16_length_ge pt
  have hctb : Bytes ct :=
    cbcEnc_bytes _ hEb iv (pad16 pt)
  have hts8len : (tsBytes8 ts).length = 8 := rfl
  have hbodylen : body.length = 25 + ct.length := by
    rw [hbody]
    simp [hts8len, hiv]
    omega
  have htaglen : tag.length = 32 := hP.mac_length _ _
  have hdatalen : (body ++ tag).length = 57 + ct.length := by
    rw [List.length_append, hbodylen, htaglen]
    omega
  have hbodyb : Bytes body := by
    intro b hb
    rw [hbody] at hb
    simp only [List.mem_cons, List.mem_append] at hb
    rcases hb with h | (h | h) | h
    · omega
    · exact tsBytes8_bytes ts b h
    · exact hivb b h
    · exact hctb b h
  have hdatab : Bytes (body ++ tag) := by
    intro b hb
    rcases List.mem_append.mp hb with h | h
    · exact hbodyb b h
    · exact hP.mac_bytes _ _ b h
  set m := (body ++ tag).set i v with hm
  have hmlen : m.length = 57 + ct.length := by rw [hm, List.length_set]; exact hdatalen
  have hmb : Bytes m := set_bytes _ i v hv hdatab
  have hmne : m ≠ [] := by
    intro hh
    have := congrArg List.length hh
    rw [hmlen] at this
    simp at this
  have hdec64 := b64Decode_b64Encode m hmb
  rw [decrypt, if_neg (b64Encode_ne_nil _ hmne)]
  split
  next heq => rfl
  next data heq =>
  rw [hdec64] at heq
  injection heq with heq
  subst heq
  rw [if_neg (by rw [hmlen]; omega)]
  have hmhead : m.getD 0 0 = 128 := by
    rw [hm, List.getD_eq_getElem?_getD, List.getElem?_set, if_neg (by omega), hbody]
    rfl
  rw [if_neg (by rw [hmhead]; exact fun h => h rfl)]
  have htakedata : (body ++ tag).take ((body ++ tag).length - 32) = body :=
    List.take_left' (by rw [hdatalen, hbodylen]; omega)
  have hdropdata : (body ++ tag).drop ((body ++ tag).length - 32) = tag :=
    List.drop_left' (by rw [hdatalen, hbodylen]; omega)
  have hmi : m[i]? = some v := by
    rw [hm, List.getElem?_set, if_pos rfl, if_pos hhi]
  have hcond : P.mac svc.signingKey (m.take (m.length - 32)) ≠ m.drop (m.length - 32) := by
    by_cases hcase : i < (body ++ tag).length - 32
    · have htag' : m.drop (m.length - 32) = tag := by
        rw [hm, List.length_set, drop_set_of_lt _ _ _ _ hcase]
        exact hdropdata
      have hms := hmacsafe hcase
      rw [htakedata] at hms
      rw [htag', htag, hm, List.length_set]
      exact hms
    · rw [not_lt] at hcase
      have hbodyeq : m.take (m.length - 32) = body := by
        rw [hm, List.length_set, take_set_of_le _ _ _ _ hcase]
        exact htakedata
      rw [hbodyeq, ← htag]
      intro hEq
      rw [← hdropdata, hm, List.length_set] at hEq
      have hj := congrArg (fun l => l[i - ((body ++ tag).length - 32)]?) hEq
      simp only [List.getElem?_drop] at hj
      rw [show (body ++ tag).length - 32 + (i - ((body ++ tag).length - 32)) = i
        from by omega] at hj
      rw [List.getElem?_eq_getElem hhi] at hj
      rw [hmi] at hj  
      have hw : (body ++ tag).getD i 0 = (body ++ tag)[i] := by
        rw [List.getD_eq_getElem?_getD, List.getElem?_eq_getElem hhi]
        rfl
      injection hj with hj
      exact hchange (by rw [hw, ← hj])
  rw [if_pos hcond]

theorem decrypt_rejects_tampered_byte_witness :
    decrypt demoPrimitives demoService
      (b64Encode ((tokenBytes demoPrimitives demoService 1700000000 demoIV
        [104, 105]).set 30 0)) = .error .decryptionFailed :=
  decrypt_rejects_tampered_byte demoPrimitives demoPrimitives_good demoService 1700000000
    demoIV [104, 105] 30 0 (by decide) (by decide) (by decide) (by decide) (by decide)
    (by decide) (by decide) (by decide) (by decide)

/-- C5 (counterexample): `check_strength "short"` does not return score 1 —
all five checks fail, so the score is 0. -/
theorem check_strength_short_not_one : (check_strength "short").score ≠ 1 := by decide

/-- C5 (amended): `check_strength "short"` returns score 0 (every check
fails: length, case mix, digits, special characters) and the feedback lists
the four missed checks in order. -/
theorem check_strength_short :
    (check_strength "short").score = 0 ∧
    (check_strength "short").is_weak = true ∧
    (check_strength "short").feedback =
      ["Password should be at least 8 characters", "Add uppercase and lowercase letters",
       "Add numbers", "Add special characters"] := by decide

/-- C6: for every password, `is_weak` holds exactly when the score is below
4, and the score is always between 0 and 5. -/
theorem check_strength_weak_iff_and_range (password : String) :
    ((check_strength password).is_weak = true ↔ (check_strength password).score < 4) ∧
    0 ≤ (check_strength password).score ∧ (check_strength password).score ≤ 5 := by
  unfold check_strength
  dsimp only
  split_ifs <;> simp_all

theorem tokenBytes_bytes (P : Primitives) (hP : GoodPrimitives P)
    (svc : EncryptionService) (ts : Nat) (iv pt : List Nat) (hivb : Bytes iv) :
    Bytes (tokenBytes P svc ts iv pt) := by
  intro b hb
  rw [tokenBytes] at hb
  simp only [List.mem_append, List.mem_cons] at hb
  rcases hb with (h | (h | h) | h) | h
  · omega
  · exact tsBytes8_bytes ts b h
  · exact hivb b h
  · exact cbcEnc_bytes _ (fun x => hP.blockE_bytes svc.encryptionKey x) iv (pad16 pt) b h
  · exact hP.mac_bytes _ _ b h

theorem tokenBytes_take25 (P : Primitives) (svc : EncryptionService) (ts : Nat)
    (iv pt : List Nat) (hiv : iv.length = 16) :
    (tokenBytes P svc ts iv pt).take 25 = 128 :: (tsBytes8 ts ++ iv) := by
  have h : tokenBytes P svc ts iv pt =
      (128 :: (tsBytes8 ts ++ iv)) ++
        (cbcEnc (P.blockE svc.encryptionKey) iv (pad16 pt) ++
          P.mac svc.signingKey (128 :: (tsBytes8 ts ++ iv ++
            cbcEnc (P.blockE svc.encryptionKey) iv (pad16 pt)))) := by
    rw [tokenBytes]
    simp
  rw [h]
  apply List.take_left'
  simp [hiv, show (tsBytes8 ts).length = 8 from rfl]

/-- C7: two encryptions of the same non-empty plaintext under the same
service with distinct random timestamp/IV draws yield different tokens,
and both tokens decrypt back to the plaintext. -/
theorem encrypt_nondeterministic (P : Primitives) (hP : GoodPrimitives P)
    (svc : EncryptionService) (ts1 ts2 : Nat) (iv1 iv2 pt : List Nat)
    (hpt : pt ≠ []) (hptb : Bytes pt)
    (hiv1 : iv1.length = 16) (hiv1b : Bytes iv1)
    (hiv2 : iv2.length = 16) (hiv2b : Bytes iv2)
    (hts1 : ts1 < 2 ^ 64) (hts2 : ts2 < 2 ^ 64)
    (hdraw : ¬ (ts1 = ts2 ∧ iv1 = iv2)) :
    encrypt P svc ts1 iv1 pt ≠ encrypt P svc ts2 iv2 pt ∧
    decrypt P svc (encrypt P svc ts1 iv1 pt) = .ok pt ∧
    decrypt P svc (encrypt P svc ts2 iv2 pt) = .ok pt := by
  refine ⟨?_, decrypt_encrypt P hP svc ts1 iv1 pt hpt hptb hiv1 hiv1b,
    decrypt_encrypt P hP svc ts2 iv2 pt hpt hptb hiv2 hiv2b⟩
  intro hEq
  rw [encrypt, if_neg hpt, encrypt, if_neg hpt] at hEq
  have hd1 := b64Decode_b64Encode _ (tokenBytes_bytes P hP svc ts1 iv1 pt hiv1b)
  have hd2 := b64Decode_b64Encode _ (tokenBytes_bytes P hP svc ts2 iv2 pt hiv2b)
  rw [hEq, hd2] at hd1
  have hdata : tokenBytes P svc ts1 iv1 pt = tokenBytes P svc ts2 iv2 pt :=
    (Option.some.inj hd1).symm
  have h25 := congrArg (List.take 25) hdata
  rw [tokenBytes_take25 P svc ts1 iv1 pt hiv1,
    tokenBytes_take25 P svc ts2 iv2 pt hiv2] at h25
  have hsplit := List.append_inj (List.cons.inj h25).2 rfl
  exact hdraw ⟨tsBytes8_inj ts1 ts2 hts1 hts2 hsplit.1, hsplit.2⟩

theorem encrypt_nondeterministic_witness :
    encrypt demoPrimitives demoService 1700000000 demoIV [104, 105] ≠
      encrypt demoPrimitives demoService 1700000000 demoIV2 [104, 105] ∧
    decrypt demoPrimitives demoService
      (encrypt demoPrimitives demoService 1700000000 demoIV [104, 105]) = .ok [104, 105] ∧
    decrypt demoPrimitives demoService
      (encrypt demoPrimitives demoService 1700000000 demoIV2 [104, 105]) = .ok [104, 105] :=
  encrypt_nondeterministic demoPrimitives demoPrimitives_good demoService
    1700000000 1700000000 demoIV demoIV2 [104, 105] (by decide) (by decide) (by decide)
    (by decide) (by decide) (by decide) (by decide) (by decide) (by decide)
